import Mathlib

/-!
Shallow embedding of the t-triste board-tiling generator
(`t-triste-lib/src/piece/piece_set_generator.rs`) together with proofs of
the specification's testable properties.

Grid cells are `(row, col) : Int × Int`; the Rust `HashSet<(i32, i32)>` of
filled cells is modelled as a `Finset (Int × Int)`; the recursive
`backtrack` function is modelled by a fuel-indexed recursion `backtrackF`
(fuel strictly exceeding the number of empty grid cells is proved
sufficient, so the fuel bottom is unreachable at the fuel used by
`generate_piece_set`).
-/

/-- The `PieceType` enum: the fixed shape catalog. -/
inductive PieceType where
  | Square
  | Rectangle
  | L
  | Z
  | Corner
deriving DecidableEq, Repr

/-- `PieceType::all_types`: catalog in its fixed, load-bearing order. -/
def PieceType.all_types : List PieceType :=
  [.Square, .Rectangle, .L, .Z, .Corner]

/-- `PieceType::shape_offsets`: relative `(row, col)` offsets from the anchor. -/
def PieceType.shape_offsets : PieceType → List (Int × Int)
  | .Square => [(0, 0)]
  | .Rectangle => [(0, 0), (1, 0), (2, 0)]
  | .L => [(0, 0), (1, 0), (2, 0), (2, 1)]
  | .Z => [(0, 0), (0, 1), (1, 1), (1, 2)]
  | .Corner => [(0, 0), (1, 0), (1, 1)]

/-- `PieceType::size`: the number of squares the piece occupies. -/
def PieceType.size (t : PieceType) : Nat :=
  t.shape_offsets.length

/-- `SQUARE_WIDTH` from `piece/mod.rs`: pixel width of one grid square. -/
def SQUARE_WIDTH : Int := 50

/-- The `PlacedPiece` struct: a shape bound to a grid anchor. -/
structure PlacedPiece where
  piece_type : PieceType
  grid_row : Int
  grid_col : Int
deriving DecidableEq, Repr

/-- `PlacedPiece::occupied_positions`: anchor plus each shape offset. -/
def PlacedPiece.occupied_positions (p : PlacedPiece) : List (Int × Int) :=
  p.piece_type.shape_offsets.map
    (fun off => (p.grid_row + off.1, p.grid_col + off.2))

/-- `PlacedPiece::to_pixel_position`: pixel coordinates of the anchor cell. -/
def PlacedPiece.to_pixel_position (p : PlacedPiece)
    (board_start_x board_start_y : Int) : Int × Int :=
  (board_start_x + p.grid_col * SQUARE_WIDTH,
   board_start_y + p.grid_row * SQUARE_WIDTH)

/-- The `BoardState` struct: dimensions plus the set of filled cells. -/
structure BoardState where
  rows : Nat
  cols : Nat
  filled : Finset (Int × Int)
deriving DecidableEq

/-- `BoardState::new`: empty board. -/
def BoardState.new (rows cols : Nat) : BoardState :=
  ⟨rows, cols, ∅⟩

/-- `BoardState::is_within_bounds`. -/
def BoardState.is_within_bounds (b : BoardState) (row col : Int) : Bool :=
  decide (0 ≤ row) && decide (row < (b.rows : Int)) &&
  decide (0 ≤ col) && decide (col < (b.cols : Int))

/-- `BoardState::is_filled`. -/
def BoardState.is_filled (b : BoardState) (row col : Int) : Bool :=
  decide ((row, col) ∈ b.filled)

/-- `BoardState::can_place_piece`: every occupied cell in bounds and unfilled. -/
def BoardState.can_place_piece (b : BoardState) (p : PlacedPiece) : Bool :=
  p.occupied_positions.all
    (fun rc => b.is_within_bounds rc.1 rc.2 && !(b.is_filled rc.1 rc.2))

/-- `BoardState::place_piece`: insert all occupied cells into the filled set. -/
def BoardState.place_piece (b : BoardState) (p : PlacedPiece) : BoardState :=
  { b with filled := p.occupied_positions.foldl (fun s pos => insert pos s) b.filled }

/-- `BoardState::remove_piece`: delete all occupied cells from the filled set. -/
def BoardState.remove_piece (b : BoardState) (p : PlacedPiece) : BoardState :=
  { b with filled := p.occupied_positions.foldl (fun s pos => s.erase pos) b.filled }

/-- `BoardState::is_complete`: `|filled| = rows * cols`. -/
def BoardState.is_complete (b : BoardState) : Bool :=
  decide (b.filled.card = b.rows * b.cols)

/-- `BoardState::empty_count`. -/
def BoardState.empty_count (b : BoardState) : Nat :=
  b.rows * b.cols - b.filled.card

/-- The row-major scan order of `BoardState::first_empty_position`. -/
def gridList (rows cols : Nat) : List (Int × Int) :=
  (List.range rows).flatMap
    (fun r : Nat => (List.range cols).map (fun c : Nat => ((r : Int), (c : Int))))

/-- `BoardState::first_empty_position`: row-major scan for the first
unfilled cell. -/
def BoardState.first_empty_position (b : BoardState) : Option (Int × Int) :=
  (gridList b.rows b.cols).find? (fun rc => !(b.is_filled rc.1 rc.2))

/-- The candidate placements tried by `backtrack` for a target cell: for
each piece type in catalog order, for each offset in the shape's own
order, the placement anchored so that this offset lands on the target. -/
def candidates (target : Int × Int) (piece_types : List PieceType) :
    List PlacedPiece :=
  piece_types.flatMap (fun pt =>
    pt.shape_offsets.map (fun off =>
      ⟨pt, target.1 - off.1, target.2 - off.2⟩))

/-- The candidate loop of `backtrack`, abstracted over the recursive call
`recur` (one fuel step lower). `none` signals fuel exhaustion, `some none`
a failed branch, `some (some r)` success with the accumulated pieces `r`.
On a failed branch the piece is removed and popped exactly as in the
source. -/
def tryPieces
    (recur : BoardState → List PlacedPiece → List PieceType →
      Option (Option (List PlacedPiece))) :
    BoardState → List PlacedPiece → List PlacedPiece → List PieceType →
      Option (Option (List PlacedPiece))
  | _, _, [], _ => some none
  | board, pieces, c :: rest, piece_types =>
    if board.can_place_piece c = true then
      match recur (board.place_piece c) (pieces ++ [c]) piece_types with
      | none => none
      | some (some r) => some (some r)
      | some none =>
          tryPieces recur ((board.place_piece c).remove_piece c)
            ((pieces ++ [c]).dropLast) rest piece_types
    else
      tryPieces recur board pieces rest piece_types

/-- Fuel-indexed embedding of the recursive `backtrack` function. -/
def backtrackF : Nat → BoardState → List PlacedPiece → List PieceType →
    Option (Option (List PlacedPiece))
  | 0, _, _, _ => none
  | fuel + 1, board, pieces, piece_types =>
    if board.is_complete = true then some (some pieces)
    else
      match board.first_empty_position with
      | none => some none
      | some target =>
          tryPieces (backtrackF fuel) board pieces
            (candidates target piece_types) piece_types

/-- `generate_piece_set`: run the backtracking search on an empty board.
The fuel `rows * cols + 1` strictly exceeds the number of empty cells, and
is proved sufficient below, so the fuel-exhaustion branch is unreachable. -/
def generate_piece_set (rows cols : Nat) : Option (List PlacedPiece) :=
  match backtrackF (rows * cols + 1) (BoardState.new rows cols) []
      PieceType.all_types with
  | some r => r
  | none => none

/-- The integers `0, …, n-1` as a `Finset Int`. -/
def intRange (n : Nat) : Finset Int :=
  (Finset.range n).image (fun k : Nat => (k : Int))

/-- The full `rows × cols` grid as a finite set of cells. -/
def gridFinset (rows cols : Nat) : Finset (Int × Int) :=
  intRange rows ×ˢ intRange cols

/-- Number of in-bounds cells still empty; the measure that shrinks at
every placement. -/
def emptyCard (b : BoardState) : Nat :=
  ((gridFinset b.rows b.cols) \ b.filled).card

/-- The occupied cells of a placement as a finite set. -/
def posFinset (p : PlacedPiece) : Finset (Int × Int) :=
  p.occupied_positions.toFinset

/-- Union of the occupied cells of a list of placements. -/
def unionOccupied (ps : List PlacedPiece) : Finset (Int × Int) :=
  ps.foldr (fun p acc => posFinset p ∪ acc) ∅

/-- Pairwise disjointness of the occupied-cell sets of a placement list. -/
abbrev PairwiseDisjointPieces (ps : List PlacedPiece) : Prop :=
  ps.Pairwise (fun p q => posFinset p ∩ posFinset q = ∅)

/-- Search-state invariant of the backtracking recursion: the filled set
is exactly the union of the accumulated placements' cells, those cell sets
are pairwise disjoint, and everything stays within the grid. -/
abbrev SearchInv (rows cols : Nat) (b : BoardState) (ps : List PlacedPiece) :
    Prop :=
  b.rows = rows ∧ b.cols = cols ∧ b.filled = unionOccupied ps ∧
  PairwiseDisjointPieces ps ∧ b.filled ⊆ gridFinset rows cols

/-- A complete non-overlapping covering of the grid by catalog shapes. -/
def IsCovering (rows cols : Nat) (ps : List PlacedPiece) : Prop :=
  PairwiseDisjointPieces ps ∧ unionOccupied ps = gridFinset rows cols

/-- Flattened list of all occupied cells of a placement list. -/
def occupiedFlat (ps : List PlacedPiece) : List (Int × Int) :=
  (ps.map PlacedPiece.occupied_positions).flatten

/-- The render projection as the spec's sentence describes it: one
coordinate pair per occupied cell, `x = origin_x + col*cell_size`,
`y = origin_y + row*cell_size`. Stated from the spec's words, for
comparison with the source's `to_pixel_position`. -/
def to_render_position_spec (p : PlacedPiece)
    (origin_x origin_y cell_size : Int) : List (Int × Int) :=
  p.occupied_positions.map
    (fun rc => (origin_x + rc.2 * cell_size, origin_y + rc.1 * cell_size))

/-- Modelled from the spec: the fallback generator `generate_simple`
(spec §4.5) is not among the provided sources; its placements carry a
free-form shape, "one row-spanning shape per row, each covering the entire
row (offsets (0,0)…(0,cols-1)), anchored at (row, 0)". -/
structure SimplePlacement where
  offsets : List (Int × Int)
  grid_row : Int
  grid_col : Int
deriving DecidableEq, Repr

/-- Modelled from the spec: occupied cells of a fallback placement,
anchor plus each offset (same rule as `PlacedPiece::occupied_positions`). -/
def SimplePlacement.occupied (p : SimplePlacement) : List (Int × Int) :=
  p.offsets.map (fun off => (p.grid_row + off.1, p.grid_col + off.2))

/-- Modelled from the spec: the row-spanning shape with offsets
`(0,0)…(0,cols-1)`. -/
def row_shape (cols : Nat) : List (Int × Int) :=
  (List.range cols).map (fun c : Nat => ((0 : Int), (c : Int)))

/-- Modelled from the spec: `generate_simple(rows, cols)`, one
row-spanning placement per row, anchored at `(row, 0)`; never fails. -/
def generate_simple (rows cols : Nat) : List SimplePlacement :=
  (List.range rows).map
    (fun r : Nat => ⟨row_shape cols, (r : Int), 0⟩)

/-- Union of occupied cells of a fallback placement list. -/
def unionSimple (ps : List SimplePlacement) : Finset (Int × Int) :=
  ps.foldr (fun p acc => p.occupied.toFinset ∪ acc) ∅

lemma mem_intRange {n : Nat} {x : Int} :
    x ∈ intRange n ↔ 0 ≤ x ∧ x < (n : Int) := by
  simp only [intRange, Finset.mem_image, Finset.mem_range]
  constructor
  · rintro ⟨k, hk, rfl⟩
    omega
  · rintro ⟨h0, hn⟩
    exact ⟨x.toNat, by omega, by omega⟩

lemma card_intRange (n : Nat) : (intRange n).card = n := by
  rw [intRange, Finset.card_image_of_injective _ Nat.cast_injective,
    Finset.card_range]

lemma mem_gridFinset {rows cols : Nat} {rc : Int × Int} :
    rc ∈ gridFinset rows cols ↔
      0 ≤ rc.1 ∧ rc.1 < (rows : Int) ∧ 0 ≤ rc.2 ∧ rc.2 < (cols : Int) := by
  simp only [gridFinset, Finset.mem_product, mem_intRange]
  tauto

lemma card_gridFinset (rows cols : Nat) :
    (gridFinset rows cols).card = rows * cols := by
  rw [gridFinset, Finset.card_product, card_intRange, card_intRange]

lemma mem_gridList {rows cols : Nat} {rc : Int × Int} :
    rc ∈ gridList rows cols ↔
      0 ≤ rc.1 ∧ rc.1 < (rows : Int) ∧ 0 ≤ rc.2 ∧ rc.2 < (cols : Int) := by
  rw [gridList, List.mem_flatMap]
  constructor
  · rintro ⟨r, hr, hmem⟩
    rw [List.mem_map] at hmem
    obtain ⟨c, hc, hrc⟩ := hmem
    rw [List.mem_range] at hr hc
    subst hrc
    refine ⟨?_, ?_, ?_, ?_⟩
    · exact Int.natCast_nonneg r
    · show ((r : Int)) < ((rows : Nat) : Int)
      exact_mod_cast hr
    · exact Int.natCast_nonneg c
    · show ((c : Int)) < ((cols : Nat) : Int)
      exact_mod_cast hc
  · rintro ⟨h1, h2, h3, h4⟩
    refine ⟨rc.1.toNat, by rw [List.mem_range]; omega, ?_⟩
    rw [List.mem_map]
    refine ⟨rc.2.toNat, by rw [List.mem_range]; omega, ?_⟩
    rw [Prod.ext_iff]
    exact ⟨by omega, by omega⟩

lemma shape_offsets_ne_nil (t : PieceType) : t.shape_offsets ≠ [] := by
  cases t <;> simp [PieceType.shape_offsets]

lemma shape_offsets_nodup (t : PieceType) : t.shape_offsets.Nodup := by
  cases t <;> decide

lemma occupied_positions_ne_nil (p : PlacedPiece) :
    p.occupied_positions ≠ [] := by
  simp [PlacedPiece.occupied_positions, shape_offsets_ne_nil]

lemma occupied_positions_nodup (p : PlacedPiece) :
    p.occupied_positions.Nodup := by
  refine (shape_offsets_nodup p.piece_type).map ?_
  intro a b h
  simp only [Prod.mk.injEq] at h
  rw [Prod.ext_iff]
  exact ⟨by omega, by omega⟩

lemma mem_posFinset {p : PlacedPiece} {rc : Int × Int} :
    rc ∈ posFinset p ↔ rc ∈ p.occupied_positions := by
  simp [posFinset]

lemma posFinset_nonempty (p : PlacedPiece) : (posFinset p).Nonempty := by
  obtain ⟨x, hx⟩ := List.exists_mem_of_ne_nil _ (occupied_positions_ne_nil p)
  exact ⟨x, mem_posFinset.mpr hx⟩

lemma foldl_insert_eq (l : List (Int × Int)) (s : Finset (Int × Int)) :
    l.foldl (fun s pos => insert pos s) s = s ∪ l.toFinset := by
  induction l generalizing s with
  | nil => simp
  | cons a l ih =>
    rw [List.foldl_cons, ih]
    ext x
    simp only [Finset.mem_union, Finset.mem_insert, List.toFinset_cons,
      List.mem_toFinset]
    tauto

lemma foldl_erase_eq (l : List (Int × Int)) (s : Finset (Int × Int)) :
    l.foldl (fun s pos => s.erase pos) s = s \ l.toFinset := by
  induction l generalizing s with
  | nil => simp
  | cons a l ih =>
    rw [List.foldl_cons, ih]
    ext x
    simp only [Finset.mem_sdiff, Finset.mem_erase, List.toFinset_cons,
      Finset.mem_insert, List.mem_toFinset]
    tauto

lemma place_piece_filled (b : BoardState) (p : PlacedPiece) :
    (b.place_piece p).filled = b.filled ∪ posFinset p := by
  rw [BoardState.place_piece, foldl_insert_eq]
  rfl

lemma remove_piece_filled (b : BoardState) (p : PlacedPiece) :
    (b.remove_piece p).filled = b.filled \ posFinset p := by
  rw [BoardState.remove_piece, foldl_erase_eq]
  rfl

lemma place_piece_rows (b : BoardState) (p : PlacedPiece) :
    (b.place_piece p).rows = b.rows := rfl

lemma place_piece_cols (b : BoardState) (p : PlacedPiece) :
    (b.place_piece p).cols = b.cols := rfl

lemma can_place_iff {b : BoardState} {p : PlacedPiece} :
    b.can_place_piece p = true ↔
      ∀ rc ∈ p.occupied_positions,
        (0 ≤ rc.1 ∧ rc.1 < (b.rows : Int) ∧ 0 ≤ rc.2 ∧ rc.2 < (b.cols : Int)) ∧
          rc ∉ b.filled := by
  have step : ∀ rc : Int × Int,
      (b.is_within_bounds rc.1 rc.2 && !(b.is_filled rc.1 rc.2)) = true ↔
        ((0 ≤ rc.1 ∧ rc.1 < (b.rows : Int) ∧ 0 ≤ rc.2 ∧ rc.2 < (b.cols : Int)) ∧
          rc ∉ b.filled) := by
    intro rc
    simp only [BoardState.is_within_bounds, BoardState.is_filled,
      Bool.and_eq_true, Bool.not_eq_true', decide_eq_true_eq,
      decide_eq_false_iff_not, Prod.mk.eta]
    tauto
  rw [BoardState.can_place_piece, List.all_eq_true]
  exact forall_congr' fun rc => imp_congr Iff.rfl (step rc)

lemma mem_unionOccupied {ps : List PlacedPiece} {x : Int × Int} :
    x ∈ unionOccupied ps ↔ ∃ p ∈ ps, x ∈ posFinset p := by
  induction ps with
  | nil => simp [unionOccupied]
  | cons p ps ih =>
    simp only [unionOccupied, List.foldr_cons, Finset.mem_union, List.mem_cons]
    rw [show ps.foldr (fun p acc => posFinset p ∪ acc) ∅ = unionOccupied ps from rfl]
    rw [ih]
    constructor
    · rintro (h | ⟨q, hq, hx⟩)
      · exact ⟨p, Or.inl rfl, h⟩
      · exact ⟨q, Or.inr hq, hx⟩
    · rintro ⟨q, (rfl | hq), hx⟩
      · exact Or.inl hx
      · exact Or.inr ⟨q, hq, hx⟩

lemma unionOccupied_concat (ps : List PlacedPiece) (c : PlacedPiece) :
    unionOccupied (ps ++ [c]) = unionOccupied ps ∪ posFinset c := by
  ext x
  rw [mem_unionOccupied, Finset.mem_union, mem_unionOccupied]
  constructor
  · rintro ⟨q, hq, hx⟩
    rw [List.mem_append, List.mem_singleton] at hq
    rcases hq with hq | rfl
    · exact Or.inl ⟨q, hq, hx⟩
    · exact Or.inr hx
  · rintro (⟨q, hq, hx⟩ | hx)
    · exact ⟨q, List.mem_append_left _ hq, hx⟩
    · exact ⟨c, List.mem_append_right _ (List.mem_singleton_self c), hx⟩

lemma dropLast_concat_pieces (ps : List PlacedPiece) (c : PlacedPiece) :
    (ps ++ [c]).dropLast = ps := by
  simp

lemma place_remove_eq {b : BoardState} {p : PlacedPiece}
    (h : b.can_place_piece p = true) :
    (b.place_piece p).remove_piece p = b := by
  have hfree := can_place_iff.mp h
  obtain ⟨rows, cols, filled⟩ := b
  have hfill : ((BoardState.mk rows cols filled).place_piece p).remove_piece p =
      BoardState.mk rows cols
        (((BoardState.mk rows cols filled).place_piece p).filled \ posFinset p) := by
    rw [BoardState.remove_piece, foldl_erase_eq]
    rfl
  rw [hfill, place_piece_filled]
  have : (filled ∪ posFinset p) \ posFinset p = filled := by
    ext x
    simp only [Finset.mem_sdiff, Finset.mem_union]
    constructor
    · rintro ⟨h1 | h1, h2⟩
      · exact h1
      · exact absurd h1 h2
    · intro hx
      refine ⟨Or.inl hx, fun hc => ?_⟩
      exact (hfree x (mem_posFinset.mp hc)).2 hx
  rw [this]

lemma can_place_subset_grid {b : BoardState} {p : PlacedPiece}
    (h : b.can_place_piece p = true) :
    posFinset p ⊆ gridFinset b.rows b.cols := by
  intro x hx
  have := (can_place_iff.mp h x (mem_posFinset.mp hx)).1
  rw [mem_gridFinset]
  exact this

lemma emptyCard_place_lt {b : BoardState} {p : PlacedPiece}
    (h : b.can_place_piece p = true) :
    emptyCard (b.place_piece p) < emptyCard b := by
  obtain ⟨x, hx⟩ := posFinset_nonempty p
  have hxg : x ∈ gridFinset b.rows b.cols := can_place_subset_grid h hx
  have hxf : x ∉ b.filled := (can_place_iff.mp h x (mem_posFinset.mp hx)).2
  have key : gridFinset (b.place_piece p).rows (b.place_piece p).cols \
      (b.place_piece p).filled ⊂ gridFinset b.rows b.cols \ b.filled := by
    rw [place_piece_rows, place_piece_cols, place_piece_filled]
    constructor
    · intro y hy
      rw [Finset.mem_sdiff] at hy ⊢
      exact ⟨hy.1, fun hc => hy.2 (Finset.mem_union_left _ hc)⟩
    · intro hsub
      have hmem : x ∈ gridFinset b.rows b.cols \ b.filled :=
        Finset.mem_sdiff.mpr ⟨hxg, hxf⟩
      have := hsub hmem
      rw [Finset.mem_sdiff] at this
      exact this.2 (Finset.mem_union_right _ hx)
  exact Finset.card_lt_card key

lemma first_empty_some {b : BoardState} {t : Int × Int}
    (h : b.first_empty_position = some t) :
    t ∈ gridFinset b.rows b.cols ∧ t ∉ b.filled := by
  have h1 := List.mem_of_find?_eq_some h
  have h2 := List.find?_some h
  rw [mem_gridList] at h1
  constructor
  · rw [mem_gridFinset]; exact h1
  · simp only [BoardState.is_filled, Bool.not_eq_true', decide_eq_false_iff_not,
      Prod.mk.eta] at h2
    exact h2

lemma first_empty_none {b : BoardState}
    (h : b.first_empty_position = none) :
    gridFinset b.rows b.cols ⊆ b.filled := by
  rw [BoardState.first_empty_position, List.find?_eq_none] at h
  intro x hx
  have := h x (mem_gridList.mpr (mem_gridFinset.mp hx))
  simp only [BoardState.is_filled, Bool.not_eq_true', decide_eq_false_iff_not,
    Prod.mk.eta, not_not] at this
  exact this

lemma is_complete_grid {rows cols : Nat} {b : BoardState}
    {ps : List PlacedPiece} (hInv : SearchInv rows cols b ps)
    (h : b.is_complete = true) :
    unionOccupied ps = gridFinset rows cols := by
  obtain ⟨hr, hc, hfill, _, hsub⟩ := hInv
  rw [BoardState.is_complete, decide_eq_true_eq] at h
  rw [← hfill]
  apply Finset.eq_of_subset_of_card_le hsub
  rw [card_gridFinset, ← hr, ← hc, ← h]

lemma searchInv_step {rows cols : Nat} {b : BoardState} {ps : List PlacedPiece}
    {c : PlacedPiece} (hInv : SearchInv rows cols b ps)
    (hcp : b.can_place_piece c = true) :
    SearchInv rows cols (b.place_piece c) (ps ++ [c]) := by
  obtain ⟨hr, hc, hfill, hdisj, hsub⟩ := hInv
  have hfree := can_place_iff.mp hcp
  refine ⟨hr, hc, ?_, ?_, ?_⟩
  · rw [place_piece_filled, unionOccupied_concat, hfill]
  · show List.Pairwise (fun p q => posFinset p ∩ posFinset q = ∅) (ps ++ [c])
    rw [List.pairwise_append]
    refine ⟨hdisj, List.pairwise_singleton _ _, ?_⟩
    intro p hp c' hc'
    rw [List.mem_singleton] at hc'
    subst hc'
    rw [Finset.eq_empty_iff_forall_not_mem]
    intro x hx
    rw [Finset.mem_inter] at hx
    have hxf : x ∈ b.filled := by
      rw [hfill, mem_unionOccupied]
      exact ⟨p, hp, hx.1⟩
    exact (hfree x (mem_posFinset.mp hx.2)).2 hxf
  · rw [place_piece_filled]
    apply Finset.union_subset
    · exact hsub
    · have := can_place_subset_grid hcp
      rwa [hr, hc] at this

lemma tryPieces_isSome {fuel : Nat}
    (Hrec : ∀ b ps pts, emptyCard b < fuel →
      (backtrackF fuel b ps pts).isSome = true) :
    ∀ (cands : List PlacedPiece) (b : BoardState) (ps : List PlacedPiece)
      (pts : List PieceType), emptyCard b ≤ fuel →
      (tryPieces (backtrackF fuel) b ps cands pts).isSome = true := by
  intro cands
  induction cands with
  | nil =>
    intro b ps pts hle
    simp [tryPieces]
  | cons c rest ih =>
    intro b ps pts hle
    simp only [tryPieces]
    by_cases hcp : b.can_place_piece c = true
    · rw [if_pos hcp]
      have hlt : emptyCard (b.place_piece c) < fuel :=
        lt_of_lt_of_le (emptyCard_place_lt hcp) hle
      have h1 := Hrec (b.place_piece c) (ps ++ [c]) pts hlt
      rcases hv : backtrackF fuel (b.place_piece c) (ps ++ [c]) pts with _ | o
      · rw [hv] at h1
        simp at h1
      · rcases o with _ | r
        · show (tryPieces (backtrackF fuel) ((b.place_piece c).remove_piece c)
            ((ps ++ [c]).dropLast) rest pts).isSome = true
          rw [place_remove_eq hcp, dropLast_concat_pieces]
          exact ih b ps pts hle
        · rfl
    · rw [if_neg hcp]
      exact ih b ps pts hle

lemma backtrackF_isSome : ∀ (fuel : Nat) (b : BoardState)
    (ps : List PlacedPiece) (pts : List PieceType), emptyCard b < fuel →
    (backtrackF fuel b ps pts).isSome = true := by
  intro fuel
  induction fuel with
  | zero =>
    intro b ps pts h
    exact absurd h (Nat.not_lt_zero _)
  | succ fuel ih =>
    intro b ps pts h
    rw [backtrackF]
    by_cases hcomp : b.is_complete = true
    · rw [if_pos hcomp]
      rfl
    · rw [if_neg hcomp]
      rcases hfe : b.first_empty_position with _ | target
      · rfl
      · exact tryPieces_isSome ih _ b ps pts (Nat.lt_succ_iff.mp h)

lemma tryPieces_sound {rows cols : Nat} {fuel : Nat}
    (Hrec : ∀ b ps pts r, SearchInv rows cols b ps →
      backtrackF fuel b ps pts = some (some r) →
      unionOccupied r = gridFinset rows cols ∧ PairwiseDisjointPieces r) :
    ∀ (cands : List PlacedPiece) (b : BoardState) (ps : List PlacedPiece)
      (pts : List PieceType) (r : List PlacedPiece), SearchInv rows cols b ps →
      tryPieces (backtrackF fuel) b ps cands pts = some (some r) →
      unionOccupied r = gridFinset rows cols ∧ PairwiseDisjointPieces r := by
  intro cands
  induction cands with
  | nil =>
    intro b ps pts r hInv h
    simp [tryPieces] at h
  | cons c rest ih =>
    intro b ps pts r hInv h
    simp only [tryPieces] at h
    by_cases hcp : b.can_place_piece c = true
    · rw [if_pos hcp] at h
      rcases hv : backtrackF fuel (b.place_piece c) (ps ++ [c]) pts with _ | o
      · rw [hv] at h
        exact absurd h (by simp)
      · rcases o with _ | r0
        · rw [hv] at h
          rw [show (match (some none : Option (Option (List PlacedPiece))) with
              | none => none
              | some (some r) => some (some r)
              | some none =>
                tryPieces (backtrackF fuel) ((b.place_piece c).remove_piece c)
                  ((ps ++ [c]).dropLast) rest pts) =
              tryPieces (backtrackF fuel) ((b.place_piece c).remove_piece c)
                ((ps ++ [c]).dropLast) rest pts from rfl] at h
          rw [place_remove_eq hcp, dropLast_concat_pieces] at h
          exact ih b ps pts r hInv h
        · rw [hv] at h
          have hr0 : r0 = r := by
            simpa using h
          subst hr0
          exact Hrec (b.place_piece c) (ps ++ [c]) pts r0
            (searchInv_step hInv hcp) hv
    · rw [if_neg hcp] at h
      exact ih b ps pts r hInv h

lemma backtrackF_sound {rows cols : Nat} : ∀ (fuel : Nat) (b : BoardState)
    (ps : List PlacedPiece) (pts : List PieceType) (r : List PlacedPiece),
    SearchInv rows cols b ps → backtrackF fuel b ps pts = some (some r) →
    unionOccupied r = gridFinset rows cols ∧ PairwiseDisjointPieces r := by
  intro fuel
  induction fuel with
  | zero =>
    intro b ps pts r hInv h
    simp [backtrackF] at h
  | succ fuel ih =>
    intro b ps pts r hInv h
    rw [backtrackF] at h
    by_cases hcomp : b.is_complete = true
    · rw [if_pos hcomp] at h
      have hps : ps = r := by
        simpa using h
      subst hps
      exact ⟨is_complete_grid hInv hcomp, hInv.2.2.2.1⟩
    · rw [if_neg hcomp] at h
      rcases hfe : b.first_empty_position with _ | target
      · rw [hfe] at h
        exact absurd h (by simp)
      · rw [hfe] at h
        exact tryPieces_sound ih _ b ps pts r hInv h

lemma tryPieces_cons_success
    {recur : BoardState → List PlacedPiece → List PieceType →
      Option (Option (List PlacedPiece))}
    {b : BoardState} {ps : List PlacedPiece} {c : PlacedPiece}
    {rest : List PlacedPiece} {pts : List PieceType} {r : List PlacedPiece}
    (hcp : b.can_place_piece c = true)
    (hrec : recur (b.place_piece c) (ps ++ [c]) pts = some (some r)) :
    tryPieces recur b ps (c :: rest) pts = some (some r) := by
  simp only [tryPieces]
  rw [if_pos hcp, hrec]

lemma backtrackF_success : ∀ (fuel : Nat) (b : BoardState)
    (ps : List PlacedPiece), emptyCard b < fuel →
    b.filled ⊆ gridFinset b.rows b.cols →
    ∃ r, backtrackF fuel b ps PieceType.all_types = some (some r) := by
  intro fuel
  induction fuel with
  | zero =>
    intro b ps h
    exact absurd h (Nat.not_lt_zero _)
  | succ fuel ih =>
    intro b ps h hsub
    rw [backtrackF]
    by_cases hcomp : b.is_complete = true
    · rw [if_pos hcomp]
      exact ⟨ps, rfl⟩
    · rw [if_neg hcomp]
      rcases hfe : b.first_empty_position with _ | t
      · exfalso
        have h1 := first_empty_none hfe
        have heq : b.filled = gridFinset b.rows b.cols :=
          Finset.Subset.antisymm hsub h1
        apply hcomp
        rw [BoardState.is_complete, decide_eq_true_eq, heq, card_gridFinset]
      · have ht := first_empty_some hfe
        have hrest : candidates t PieceType.all_types =
            PlacedPiece.mk PieceType.Square (t.1 - 0) (t.2 - 0) ::
              ([PieceType.Rectangle, PieceType.L, PieceType.Z,
                PieceType.Corner].flatMap (fun pt =>
                  pt.shape_offsets.map (fun off =>
                    PlacedPiece.mk pt (t.1 - off.1) (t.2 - off.2)))) := rfl
        rw [sub_zero, sub_zero] at hrest
        show ∃ r, tryPieces (backtrackF fuel) b ps
          (candidates t PieceType.all_types) PieceType.all_types = some (some r)
        have hcp : b.can_place_piece ⟨PieceType.Square, t.1, t.2⟩ = true := by
          rw [can_place_iff]
          intro rc hrc
          simp only [PlacedPiece.occupied_positions, PieceType.shape_offsets,
            List.map_cons, List.map_nil, List.mem_singleton, add_zero] at hrc
          subst hrc
          have htg := mem_gridFinset.mp ht.1
          exact ⟨htg, by rw [Prod.mk.eta]; exact ht.2⟩
        have hlt : emptyCard (b.place_piece ⟨PieceType.Square, t.1, t.2⟩) < fuel :=
          lt_of_lt_of_le (emptyCard_place_lt hcp) (Nat.lt_succ_iff.mp h)
        have hsub' : (b.place_piece ⟨PieceType.Square, t.1, t.2⟩).filled ⊆
            gridFinset (b.place_piece ⟨PieceType.Square, t.1, t.2⟩).rows
              (b.place_piece ⟨PieceType.Square, t.1, t.2⟩).cols := by
          rw [place_piece_rows, place_piece_cols, place_piece_filled]
          exact Finset.union_subset hsub (can_place_subset_grid hcp)
        obtain ⟨r, hr⟩ := ih (b.place_piece ⟨PieceType.Square, t.1, t.2⟩)
          (ps ++ [⟨PieceType.Square, t.1, t.2⟩]) hlt hsub'
        exact ⟨r, by rw [hrest]; exact tryPieces_cons_success hcp hr⟩

lemma tryPieces_congr {fuel : Nat}
    (Hrec : ∀ b ps pts, emptyCard b < fuel →
      backtrackF fuel b ps pts = backtrackF (fuel + 1) b ps pts) :
    ∀ (cands : List PlacedPiece) (b : BoardState) (ps : List PlacedPiece)
      (pts : List PieceType), emptyCard b ≤ fuel →
      tryPieces (backtrackF fuel) b ps cands pts =
        tryPieces (backtrackF (fuel + 1)) b ps cands pts := by
  intro cands
  induction cands with
  | nil =>
    intro b ps pts hle
    rfl
  | cons c rest ih =>
    intro b ps pts hle
    simp only [tryPieces]
    by_cases hcp : b.can_place_piece c = true
    · rw [if_pos hcp, if_pos hcp,
        ← Hrec (b.place_piece c) (ps ++ [c]) pts
          (lt_of_lt_of_le (emptyCard_place_lt hcp) hle)]
      rcases hv : backtrackF fuel (b.place_piece c) (ps ++ [c]) pts with _ | o
      · rfl
      · rcases o with _ | r
        · show tryPieces (backtrackF fuel) ((b.place_piece c).remove_piece c)
              ((ps ++ [c]).dropLast) rest pts =
            tryPieces (backtrackF (fuel + 1)) ((b.place_piece c).remove_piece c)
              ((ps ++ [c]).dropLast) rest pts
          rw [place_remove_eq hcp, dropLast_concat_pieces]
          exact ih b ps pts hle
        · rfl
    · rw [if_neg hcp, if_neg hcp]
      exact ih b ps pts hle

lemma backtrackF_fuel_succ : ∀ (fuel : Nat) (b : BoardState)
    (ps : List PlacedPiece) (pts : List PieceType), emptyCard b < fuel →
    backtrackF fuel b ps pts = backtrackF (fuel + 1) b ps pts := by
  intro fuel
  induction fuel with
  | zero =>
    intro b ps pts h
    exact absurd h (Nat.not_lt_zero _)
  | succ fuel ih =>
    intro b ps pts h
    simp only [backtrackF]
    by_cases hcomp : b.is_complete = true
    · rw [if_pos hcomp, if_pos hcomp]
    · rw [if_neg hcomp, if_neg hcomp]
      rcases hfe : b.first_empty_position with _ | t
      · rfl
      · exact tryPieces_congr ih _ b ps pts (Nat.lt_succ_iff.mp h)

lemma backtrackF_fuel_ge (f1 f2 : Nat) (b : BoardState)
    (ps : List PlacedPiece) (pts : List PieceType)
    (h1 : emptyCard b < f1) (hle : f1 ≤ f2) :
    backtrackF f1 b ps pts = backtrackF f2 b ps pts := by
  induction f2, hle using Nat.le_induction with
  | base => rfl
  | succ f2 hle ih =>
    rw [ih, backtrackF_fuel_succ f2 b ps pts (lt_of_lt_of_le h1 hle)]

lemma emptyCard_new (rows cols : Nat) :
    emptyCard (BoardState.new rows cols) = rows * cols := by
  show ((gridFinset rows cols) \ (∅ : Finset (Int × Int))).card = rows * cols
  rw [Finset.sdiff_empty, card_gridFinset]

lemma searchInv_new (rows cols : Nat) :
    SearchInv rows cols (BoardState.new rows cols) [] :=
  ⟨rfl, rfl, rfl, List.Pairwise.nil, Finset.empty_subset _⟩

lemma backtrackF_run (rows cols : Nat) :
    backtrackF (rows * cols + 1) (BoardState.new rows cols) []
        PieceType.all_types = some (generate_piece_set rows cols) := by
  rcases hv : backtrackF (rows * cols + 1) (BoardState.new rows cols) []
      PieceType.all_types with _ | o
  · exfalso
    have h1 := backtrackF_isSome (rows * cols + 1) (BoardState.new rows cols)
      [] PieceType.all_types (by rw [emptyCard_new]; omega)
    rw [hv] at h1
    simp at h1
  · rw [generate_piece_set, hv]

lemma mem_occupiedFlat {ps : List PlacedPiece} {x : Int × Int} :
    x ∈ occupiedFlat ps ↔ ∃ p ∈ ps, x ∈ p.occupied_positions := by
  rw [occupiedFlat, List.mem_flatten]
  constructor
  · rintro ⟨l, hl, hx⟩
    rw [List.mem_map] at hl
    obtain ⟨p, hp, rfl⟩ := hl
    exact ⟨p, hp, hx⟩
  · rintro ⟨p, hp, hx⟩
    exact ⟨p.occupied_positions, List.mem_map_of_mem _ hp, hx⟩

lemma occupiedFlat_nodup {ps : List PlacedPiece}
    (hd : PairwiseDisjointPieces ps) : (occupiedFlat ps).Nodup := by
  rw [occupiedFlat, List.nodup_flatten]
  constructor
  · intro l hl
    rw [List.mem_map] at hl
    obtain ⟨p, _, rfl⟩ := hl
    exact occupied_positions_nodup p
  · refine List.Pairwise.map _ ?_ hd
    intro p q hpq x hx1 hx2
    have hmem : x ∈ posFinset p ∩ posFinset q :=
      Finset.mem_inter.mpr ⟨mem_posFinset.mpr hx1, mem_posFinset.mpr hx2⟩
    rw [hpq] at hmem
    exact Finset.not_mem_empty x hmem

lemma occupiedFlat_toFinset (ps : List PlacedPiece) :
    (occupiedFlat ps).toFinset = unionOccupied ps := by
  ext x
  rw [List.mem_toFinset, mem_occupiedFlat, mem_unionOccupied]
  exact exists_congr fun p => and_congr_right fun _ => mem_posFinset.symm

lemma occupiedFlat_length {rows cols : Nat} {ps : List PlacedPiece}
    (hd : PairwiseDisjointPieces ps)
    (hu : unionOccupied ps = gridFinset rows cols) :
    (occupiedFlat ps).length = rows * cols := by
  have h1 := List.toFinset_card_of_nodup (occupiedFlat_nodup hd)
  rw [occupiedFlat_toFinset, hu, card_gridFinset] at h1
  exact h1.symm

lemma mem_row_occupied {cols : Nat} {r : Int} {x : Int × Int} :
    x ∈ (SimplePlacement.mk (row_shape cols) r 0).occupied ↔
      x.1 = r ∧ 0 ≤ x.2 ∧ x.2 < (cols : Int) := by
  simp only [SimplePlacement.occupied, row_shape, List.map_map,
    Function.comp, List.mem_map, List.mem_range]
  constructor
  · rintro ⟨c, hc, rfl⟩
    refine ⟨by simp, by simp, ?_⟩
    show ((0 : Int) + (c : Int)) < (cols : Int)
    omega
  · rintro ⟨h1, h2, h3⟩
    refine ⟨x.2.toNat, by omega, ?_⟩
    rw [Prod.ext_iff]
    exact ⟨by omega, by omega⟩

lemma mem_unionSimple {ps : List SimplePlacement} {x : Int × Int} :
    x ∈ unionSimple ps ↔ ∃ p ∈ ps, x ∈ p.occupied := by
  induction ps with
  | nil => simp [unionSimple]
  | cons p ps ih =>
    simp only [unionSimple, List.foldr_cons, Finset.mem_union,
      List.mem_toFinset, List.mem_cons]
    rw [show ps.foldr (fun p acc => p.occupied.toFinset ∪ acc) ∅ =
      unionSimple ps from rfl, ih]
    constructor
    · rintro (h | ⟨q, hq, hx⟩)
      · exact ⟨p, Or.inl rfl, h⟩
      · exact ⟨q, Or.inr hq, hx⟩
    · rintro ⟨q, (rfl | hq), hx⟩
      · exact Or.inl hx
      · exact Or.inr ⟨q, hq, hx⟩

lemma mem_generate_simple {rows cols : Nat} {p : SimplePlacement} :
    p ∈ generate_simple rows cols ↔
      ∃ r : Nat, r < rows ∧ p = ⟨row_shape cols, (r : Int), 0⟩ := by
  simp only [generate_simple, List.mem_map, List.mem_range]
  constructor
  · rintro ⟨r, hr, rfl⟩
    exact ⟨r, hr, rfl⟩
  · rintro ⟨r, hr, rfl⟩
    exact ⟨r, hr, rfl⟩

/-- C6: for every board state `t` and placement `p` valid on `t`
(`can_place_piece t p`), `place_piece` followed by `remove_piece` restores
the filled set exactly. -/
theorem place_remove_roundtrip (b : BoardState) (p : PlacedPiece)
    (h : b.can_place_piece p = true) :
    ((b.place_piece p).remove_piece p).filled = b.filled := by
  rw [place_remove_eq h]

/-- Witness for C6: concrete round trip of a Square on an empty 2×2 board. -/
theorem place_remove_roundtrip_witness :
    (BoardState.new 2 2).can_place_piece ⟨PieceType.Square, 0, 0⟩ = true ∧
    (((BoardState.new 2 2).place_piece ⟨PieceType.Square, 0, 0⟩).remove_piece
      ⟨PieceType.Square, 0, 0⟩).filled = (BoardState.new 2 2).filled :=
  ⟨by decide, place_remove_roundtrip (BoardState.new 2 2)
    ⟨PieceType.Square, 0, 0⟩ (by decide)⟩

/-- C7: `can_place_piece` returns true iff every occupied cell of the
placement is in bounds and unfilled; and on a 3×5 board a Z-shape anchored
at (0,4) is rejected, its cell (1,6) lying outside the board. -/
theorem can_place_piece_characterization :
    (∀ (b : BoardState) (p : PlacedPiece),
      b.can_place_piece p = true ↔
        ∀ rc ∈ p.occupied_positions,
          (0 ≤ rc.1 ∧ rc.1 < (b.rows : Int) ∧ 0 ≤ rc.2 ∧
            rc.2 < (b.cols : Int)) ∧ rc ∉ b.filled) ∧
    (BoardState.new 3 5).can_place_piece ⟨PieceType.Z, 0, 4⟩ = false ∧
    (1, 6) ∈ (PlacedPiece.mk PieceType.Z 0 4).occupied_positions ∧
    (BoardState.new 3 5).is_within_bounds 1 6 = false :=
  ⟨fun _ _ => can_place_iff, by decide, by decide, by decide⟩

/-- C8 counterexample: the source's render projection
(`to_pixel_position`) returns one single coordinate pair — the anchor's —
not a sequence with one pair per occupied cell: for a Rectangle placement
with three occupied cells the projection is the lone pair (450, 350),
which differs from the per-cell sequence the claim describes. -/
theorem to_pixel_position_not_per_cell :
    PlacedPiece.to_pixel_position ⟨PieceType.Rectangle, 2, 3⟩ 300 250 =
      (450, 350) ∧
    (PlacedPiece.mk PieceType.Rectangle 2 3).occupied_positions.length = 3 ∧
    [PlacedPiece.to_pixel_position ⟨PieceType.Rectangle, 2, 3⟩ 300 250] ≠
      to_render_position_spec ⟨PieceType.Rectangle, 2, 3⟩ 300 250
        SQUARE_WIDTH :=
  ⟨by decide, by decide, by decide⟩

/-- C8 amended: the render-coordinate projection `to_pixel_position`
returns the single coordinate pair of the anchor cell,
`x = origin_x + anchor_col * SQUARE_WIDTH`,
`y = origin_y + anchor_row * SQUARE_WIDTH`, with the cell size fixed at
`SQUARE_WIDTH = 50` rather than taken as a parameter; it is a pure
coordinate transform (it takes no board state) and equals the first entry
of the spec's per-cell projection. -/
theorem to_pixel_position_anchor :
    ∀ (p : PlacedPiece) (origin_x origin_y : Int),
      p.to_pixel_position origin_x origin_y =
        (origin_x + p.grid_col * SQUARE_WIDTH,
         origin_y + p.grid_row * SQUARE_WIDTH) ∧
      (to_render_position_spec p origin_x origin_y SQUARE_WIDTH).head? =
        some (p.to_pixel_position origin_x origin_y) ∧
      SQUARE_WIDTH = 50 := by
  intro p ox oy
  refine ⟨rfl, ?_, rfl⟩
  obtain ⟨t, r, c⟩ := p
  cases t <;>
    simp [to_render_position_spec, PlacedPiece.occupied_positions,
      PieceType.shape_offsets, PlacedPiece.to_pixel_position, SQUARE_WIDTH]

/-- C9: search-state invariant of the backtracking recursion — a
`can_place_piece`-gated placement preserves the invariant (filled set =
union of the accumulated placements, pairwise disjoint, within bounds) on
entry to the recursive call, and the undo (`remove_piece` plus pop)
restores the exact previous state, hence the invariant after every undo. -/
theorem backtrack_invariant_step (rows cols : Nat) (b : BoardState)
    (ps : List PlacedPiece) (c : PlacedPiece)
    (hInv : SearchInv rows cols b ps) (hcp : b.can_place_piece c = true) :
    SearchInv rows cols (b.place_piece c) (ps ++ [c]) ∧
    (b.place_piece c).remove_piece c = b ∧
    (ps ++ [c]).dropLast = ps :=
  ⟨searchInv_step hInv hcp, place_remove_eq hcp, dropLast_concat_pieces ps c⟩

/-- Witness for C9: the invariant step at the root of a 2×2 search. -/
theorem backtrack_invariant_step_witness :
    SearchInv 2 2 (BoardState.new 2 2) [] ∧
    (BoardState.new 2 2).can_place_piece ⟨PieceType.Square, 0, 0⟩ = true ∧
    (SearchInv 2 2
        ((BoardState.new 2 2).place_piece ⟨PieceType.Square, 0, 0⟩)
        (([] : List PlacedPiece) ++ [PlacedPiece.mk PieceType.Square 0 0]) ∧
      ((BoardState.new 2 2).place_piece
          ⟨PieceType.Square, 0, 0⟩).remove_piece ⟨PieceType.Square, 0, 0⟩ =
        BoardState.new 2 2 ∧
      (([] : List PlacedPiece) ++ [PlacedPiece.mk PieceType.Square 0 0]).dropLast =
        ([] : List PlacedPiece)) :=
  ⟨searchInv_new 2 2, by decide,
    backtrack_invariant_step 2 2 (BoardState.new 2 2) []
      ⟨PieceType.Square, 0, 0⟩ (searchInv_new 2 2) (by decide)⟩

/-- C10: with `rows = 0` or `cols = 0` the empty board is already complete
(`|filled| = 0 = rows*cols`), so `generate_piece_set` returns the empty
placement sequence rather than failing. -/
theorem generate_piece_set_degenerate :
    ∀ rows cols : Nat,
      generate_piece_set 0 cols = some [] ∧
      generate_piece_set rows 0 = some [] := by
  intro rows cols
  constructor
  · have hcomp : (BoardState.new 0 cols).is_complete = true := by
      rw [BoardState.is_complete, decide_eq_true_eq]
      show (∅ : Finset (Int × Int)).card = 0 * cols
      rw [Finset.card_empty, Nat.zero_mul]
    rw [generate_piece_set, backtrackF, if_pos hcomp]
  · have hcomp : (BoardState.new rows 0).is_complete = true := by
      rw [BoardState.is_complete, decide_eq_true_eq]
      show (∅ : Finset (Int × Int)).card = rows * 0
      rw [Finset.card_empty, Nat.mul_zero]
    rw [generate_piece_set, backtrackF, if_pos hcomp]

/-- C1: any successful `generate_piece_set rows cols` returns placements
whose occupied cells exactly cover the rows×cols grid: the union equals
the full grid, the flattened occupied-cell list has `rows*cols` entries
with no duplicate (no cell covered twice), the occupied-cell sets of
distinct placements are pairwise disjoint, and every occupied cell lies
within bounds. -/
theorem generate_piece_set_covers :
    ∀ (rows cols : Nat) (ps : List PlacedPiece),
      generate_piece_set rows cols = some ps →
      unionOccupied ps = gridFinset rows cols ∧
      (occupiedFlat ps).length = rows * cols ∧
      (occupiedFlat ps).Nodup ∧
      PairwiseDisjointPieces ps ∧
      ∀ p ∈ ps, ∀ rc ∈ p.occupied_positions,
        0 ≤ rc.1 ∧ rc.1 < (rows : Int) ∧ 0 ≤ rc.2 ∧ rc.2 < (cols : Int) := by
  intro rows cols ps hgen
  have hrun := backtrackF_run rows cols
  rw [hgen] at hrun
  obtain ⟨hu, hd⟩ := backtrackF_sound (rows * cols + 1)
    (BoardState.new rows cols) [] PieceType.all_types ps
    (searchInv_new rows cols) hrun
  refine ⟨hu, occupiedFlat_length hd hu, occupiedFlat_nodup hd, hd, ?_⟩
  intro p hp rc hrc
  have hmem : rc ∈ unionOccupied ps :=
    mem_unionOccupied.mpr ⟨p, hp, mem_posFinset.mpr hrc⟩
  rw [hu] at hmem
  exact mem_gridFinset.mp hmem

/-- Witness for C1: the 1×1 board, whose generated set is one Square. -/
theorem generate_piece_set_covers_witness :
    generate_piece_set 1 1 = some [⟨PieceType.Square, 0, 0⟩] ∧
    (unionOccupied [⟨PieceType.Square, 0, 0⟩] = gridFinset 1 1 ∧
      (occupiedFlat [⟨PieceType.Square, 0, 0⟩]).length = 1 * 1 ∧
      (occupiedFlat [⟨PieceType.Square, 0, 0⟩]).Nodup ∧
      PairwiseDisjointPieces [⟨PieceType.Square, 0, 0⟩] ∧
      ∀ p ∈ [PlacedPiece.mk PieceType.Square 0 0],
        ∀ rc ∈ p.occupied_positions,
          0 ≤ rc.1 ∧ rc.1 < ((1 : Nat) : Int) ∧ 0 ≤ rc.2 ∧
            rc.2 < ((1 : Nat) : Int)) :=
  ⟨by decide, generate_piece_set_covers 1 1 [⟨PieceType.Square, 0, 0⟩]
    (by decide)⟩

/-- C2: `generate_piece_set` is deterministic — the result is a pure
function of `(rows, cols)` and the fixed catalog: repeated calls return
the identical value, and the result does not depend on the fuel with
which the embedded recursion is run, once the fuel exceeds the number of
empty cells. -/
theorem generate_piece_set_deterministic :
    ∀ rows cols : Nat,
      generate_piece_set rows cols = generate_piece_set rows cols ∧
      ∀ fuel : Nat, rows * cols < fuel →
        backtrackF fuel (BoardState.new rows cols) [] PieceType.all_types =
          backtrackF (rows * cols + 1) (BoardState.new rows cols) []
            PieceType.all_types := by
  intro rows cols
  refine ⟨rfl, ?_⟩
  intro fuel hf
  exact (backtrackF_fuel_ge (rows * cols + 1) fuel
    (BoardState.new rows cols) [] PieceType.all_types
    (by rw [emptyCard_new]; omega) (by omega)).symm

/-- Witness for C2: the 1×1 search gives the same answer at fuel 5 as at
the fuel `generate_piece_set` uses. -/
theorem generate_piece_set_deterministic_witness :
    generate_piece_set 1 1 = generate_piece_set 1 1 ∧
    backtrackF 5 (BoardState.new 1 1) [] PieceType.all_types =
      backtrackF (1 * 1 + 1) (BoardState.new 1 1) [] PieceType.all_types :=
  ⟨(generate_piece_set_deterministic 1 1).1,
    (generate_piece_set_deterministic 1 1).2 5 (by decide)⟩

/-- C3: `generate_piece_set rows cols` returns `none` iff no complete
non-overlapping covering of the rows×cols grid by catalog shapes exists.
(With the Square in the catalog a covering always exists and the search,
which tries every shape and offset for the first gap, always succeeds, so
both sides are false for every `rows`, `cols`.) -/
theorem generate_piece_set_none_iff_no_covering :
    ∀ rows cols : Nat,
      (generate_piece_set rows cols = none ↔
        ¬ ∃ ps : List PlacedPiece, IsCovering rows cols ps) := by
  intro rows cols
  obtain ⟨r, hr⟩ := backtrackF_success (rows * cols + 1)
    (BoardState.new rows cols) [] (by rw [emptyCard_new]; omega)
    (Finset.empty_subset _)
  have hrun := backtrackF_run rows cols
  rw [hr] at hrun
  have hgen : generate_piece_set rows cols = some r := by
    injection hrun with h'
    exact h'.symm
  constructor
  · intro hnone
    rw [hnone] at hgen
    exact Option.noConfusion hgen
  · intro hno
    exfalso
    apply hno
    obtain ⟨hu, hd⟩ := backtrackF_sound (rows * cols + 1)
      (BoardState.new rows cols) [] PieceType.all_types r
      (searchInv_new rows cols) hr
    exact ⟨r, hd, hu⟩

/-- C4: the backtracking search terminates — each `can_place_piece`-gated
placement strictly decreases the number of empty in-bounds cells, so the
fuel-indexed recursion reaches a result (never hits the artificial fuel
bottom) whenever the fuel exceeds the number of empty cells, in
particular at the fuel `generate_piece_set` supplies. -/
theorem backtrack_terminates :
    (∀ (b : BoardState) (c : PlacedPiece), b.can_place_piece c = true →
      emptyCard (b.place_piece c) < emptyCard b) ∧
    ∀ (fuel : Nat) (b : BoardState) (ps : List PlacedPiece)
      (pts : List PieceType), emptyCard b < fuel →
      (backtrackF fuel b ps pts).isSome = true :=
  ⟨fun _ _ h => emptyCard_place_lt h, backtrackF_isSome⟩

/-- Witness for C4: concrete decrease and termination on the 1×1 board. -/
theorem backtrack_terminates_witness :
    ((BoardState.new 1 1).can_place_piece ⟨PieceType.Square, 0, 0⟩ = true ∧
      emptyCard ((BoardState.new 1 1).place_piece ⟨PieceType.Square, 0, 0⟩) <
        emptyCard (BoardState.new 1 1)) ∧
    (emptyCard (BoardState.new 1 1) < 2 ∧
      (backtrackF 2 (BoardState.new 1 1) [] PieceType.all_types).isSome =
        true) :=
  ⟨⟨by decide, backtrack_terminates.1 (BoardState.new 1 1)
      ⟨PieceType.Square, 0, 0⟩ (by decide)⟩,
    ⟨by decide, backtrack_terminates.2 2 (BoardState.new 1 1) []
      PieceType.all_types (by decide)⟩⟩

/-- C5: the spec-modelled `generate_simple rows cols` never fails — for
positive dimensions it returns exactly one row-spanning placement per row
(offsets `(0,0)…(0,cols-1)`, anchored at `(row, 0)`), and the result
covers the grid exactly, with pairwise disjoint and in-bounds cells. -/
theorem generate_simple_total :
    ∀ rows cols : Nat, 0 < rows → 0 < cols →
      (generate_simple rows cols).length = rows ∧
      (∀ r : Nat, r < rows →
        SimplePlacement.mk (row_shape cols) (r : Int) 0 ∈
          generate_simple rows cols) ∧
      (∀ p ∈ generate_simple rows cols,
        p.offsets = row_shape cols ∧ p.grid_col = 0) ∧
      unionSimple (generate_simple rows cols) = gridFinset rows cols ∧
      List.Pairwise (fun p q : SimplePlacement =>
        p.occupied.toFinset ∩ q.occupied.toFinset = ∅)
        (generate_simple rows cols) ∧
      ∀ p ∈ generate_simple rows cols, ∀ rc ∈ p.occupied,
        0 ≤ rc.1 ∧ rc.1 < (rows : Int) ∧ 0 ≤ rc.2 ∧ rc.2 < (cols : Int) := by
  intro rows cols hr hc
  refine ⟨by simp [generate_simple], ?_, ?_, ?_, ?_, ?_⟩
  · intro r hrr
    rw [mem_generate_simple]
    exact ⟨r, hrr, rfl⟩
  · intro p hp
    obtain ⟨r, _, rfl⟩ := mem_generate_simple.mp hp
    exact ⟨rfl, rfl⟩
  · ext x
    rw [mem_unionSimple, mem_gridFinset]
    constructor
    · rintro ⟨p, hp, hx⟩
      obtain ⟨r, hrr, rfl⟩ := mem_generate_simple.mp hp
      rw [mem_row_occupied] at hx
      obtain ⟨h1, h2, h3⟩ := hx
      exact ⟨by omega, by omega, h2, h3⟩
    · rintro ⟨h1, h2, h3, h4⟩
      refine ⟨⟨row_shape cols, ((x.1.toNat : Nat) : Int), 0⟩, ?_, ?_⟩
      · rw [mem_generate_simple]
        exact ⟨x.1.toNat, by omega, rfl⟩
      · rw [mem_row_occupied]
        exact ⟨by omega, h3, h4⟩
  · rw [generate_simple]
    refine List.Pairwise.map _ ?_ (List.nodup_range rows)
    intro a b hab
    rw [Finset.eq_empty_iff_forall_not_mem]
    intro x hx
    rw [Finset.mem_inter, List.mem_toFinset, List.mem_toFinset] at hx
    obtain ⟨hx1, hx2⟩ := hx
    rw [mem_row_occupied] at hx1 hx2
    exact hab (by omega)
  · intro p hp rc hrc
    obtain ⟨r, hrr, rfl⟩ := mem_generate_simple.mp hp
    rw [mem_row_occupied] at hrc
    obtain ⟨h1, h2, h3⟩ := hrc
    exact ⟨by omega, by omega, h2, h3⟩

/-- Witness for C5: the fallback tiling of the 1×1 board. -/
theorem generate_simple_total_witness :
    0 < 1 ∧
    ((generate_simple 1 1).length = 1 ∧
      (∀ r : Nat, r < 1 →
        SimplePlacement.mk (row_shape 1) (r : Int) 0 ∈ generate_simple 1 1) ∧
      (∀ p ∈ generate_simple 1 1,
        p.offsets = row_shape 1 ∧ p.grid_col = 0) ∧
      unionSimple (generate_simple 1 1) = gridFinset 1 1 ∧
      List.Pairwise (fun p q : SimplePlacement =>
        p.occupied.toFinset ∩ q.occupied.toFinset = ∅) (generate_simple 1 1) ∧
      ∀ p ∈ generate_simple 1 1, ∀ rc ∈ p.occupied,
        0 ≤ rc.1 ∧ rc.1 < ((1 : Nat) : Int) ∧ 0 ≤ rc.2 ∧
          rc.2 < ((1 : Nat) : Int)) :=
  ⟨by decide, generate_simple_total 1 1 (by decide) (by decide)⟩
